import Mathlib

/-!
Shallow embedding of the freecad-text geometry pipeline (src/main.rs).

The Rust `f32` values are modelled by the type `F`: finite values carry an
exact rational (arithmetic on finite values is exact, i.e. rounding of the
floating-point operations is not modelled), and the special values `nan`,
`inf` and `ninf` follow the IEEE semantics implemented by Rust `f32`
(subtraction, division, `f32::min` / `f32::max` returning the non-nan
operand, `partial_cmp` returning `none` on nan).  The Rust saturating cast
`as i32` (nan goes to 0, infinities and out-of-range values saturate to the
i32 bounds, finite values truncate toward zero) is modelled by `F.toI32`.
Signed zero is not modelled: the model has a single zero.

Panics raised through `.expect` in the source are modelled by the error
monad `Except Err`; the error constructor follows the error category the
specification assigns to the corresponding panic message.
-/

inductive F where
  | fin (q : ℚ)
  | nan
  | inf
  | ninf
deriving DecidableEq

/-- IEEE subtraction on the f32 model (exact on finite values). -/
def F.sub : F → F → F
  | .nan, _ => .nan
  | _, .nan => .nan
  | .inf, .inf => .nan
  | .inf, _ => .inf
  | .ninf, .ninf => .nan
  | .ninf, _ => .ninf
  | .fin _, .inf => .ninf
  | .fin _, .ninf => .inf
  | .fin a, .fin b => .fin (a - b)

/-- IEEE division on the f32 model (exact on finite values; a single
unsigned zero, so a finite value divided by an infinity is plain 0, and
division of a positive value by zero is `inf`). -/
def F.div : F → F → F
  | .nan, _ => .nan
  | _, .nan => .nan
  | .inf, .inf => .nan
  | .inf, .ninf => .nan
  | .ninf, .inf => .nan
  | .ninf, .ninf => .nan
  | .inf, .fin b => if b < 0 then .ninf else .inf
  | .ninf, .fin b => if b < 0 then .inf else .ninf
  | .fin _, .inf => .fin 0
  | .fin _, .ninf => .fin 0
  | .fin a, .fin b =>
      if b = 0 then (if a = 0 then .nan else if 0 < a then .inf else .ninf)
      else .fin (a / b)

/-- Multiplication by the literal `1000.0` (a positive finite constant), as
used in `Point::map_scale`. -/
def F.mul1000 : F → F
  | .nan => .nan
  | .inf => .inf
  | .ninf => .ninf
  | .fin a => .fin (a * 1000)

/-- Truncation of a rational toward zero, the rounding mode of Rust's
float-to-integer `as` cast. -/
def truncQ (q : ℚ) : ℤ :=
  if q < 0 then -Int.floor (-q) else Int.floor q

/-- The Rust saturating cast `as i32` on the f32 model: nan goes to 0,
out-of-range values (including the infinities) saturate to the i32 bounds,
finite values truncate toward zero. -/
def F.toI32 : F → ℤ
  | .nan => 0
  | .inf => 2147483647
  | .ninf => -2147483648
  | .fin q => max (-2147483648) (min 2147483647 (truncQ q))

/-- `f32::min`: if one operand is nan the other is returned. -/
def F.fmin : F → F → F
  | .nan, b => b
  | a, .nan => a
  | .ninf, _ => .ninf
  | _, .ninf => .ninf
  | .fin a, .fin b => .fin (min a b)
  | .fin a, .inf => .fin a
  | .inf, .fin b => .fin b
  | .inf, .inf => .inf

/-- `f32::max`: if one operand is nan the other is returned. -/
def F.fmax : F → F → F
  | .nan, b => b
  | a, .nan => a
  | .inf, _ => .inf
  | _, .inf => .inf
  | .fin a, .fin b => .fin (max a b)
  | .fin a, .ninf => .fin a
  | .ninf, .fin b => .fin b
  | .ninf, .ninf => .ninf

/-- `f32::partial_cmp`: `none` iff one operand is nan. -/
def F.pcmp : F → F → Option Ordering
  | .nan, _ => none
  | _, .nan => none
  | .inf, .inf => some .eq
  | .inf, _ => some .gt
  | .ninf, .ninf => some .eq
  | .ninf, _ => some .lt
  | .fin _, .inf => some .lt
  | .fin _, .ninf => some .gt
  | .fin a, .fin b =>
      some (if a < b then .lt else if a = b then .eq else .gt)

/-- Specification-side order on the non-nan f32 values (ninf below every
finite value below inf); never holds when either side is nan. -/
def F.le : F → F → Prop
  | .ninf, .ninf => True
  | .ninf, .fin _ => True
  | .ninf, .inf => True
  | .fin a, .fin b => a ≤ b
  | .fin _, .inf => True
  | .inf, .inf => True
  | _, _ => False

/-- `struct Point(f32, f32)`; field `x` models `.0`, field `y` models `.1`. -/
structure Point where
  x : F
  y : F
deriving DecidableEq

/-- `Point::map_scale`: both coordinates are shifted by the respective
minimum and divided by the vertical extent `max_point.1 - min_point.1`,
then quantized by `((v * 1000.0) as i32) as f32 / 1000.0`. -/
def Point.map_scale (self min_point max_point : Point) : Point :=
  let x := F.div (F.sub self.x min_point.x) (F.sub max_point.y min_point.y)
  let y := F.div (F.sub self.y min_point.y) (F.sub max_point.y min_point.y)
  Point.mk (F.fin (((F.mul1000 x).toI32 : ℚ) / 1000))
           (F.fin (((F.mul1000 y).toI32 : ℚ) / 1000))

/-- `Point::min` (component-wise `f32::min`). -/
def Point.min (self other : Point) : Point :=
  ⟨F.fmin self.x other.x, F.fmin self.y other.y⟩

/-- `Point::max` (component-wise `f32::max`). -/
def Point.max (self other : Point) : Point :=
  ⟨F.fmax self.x other.x, F.fmax self.y other.y⟩

/-- `enum Primitive`. -/
inductive Primitive where
  | Quadratic (p0 p1 p2 : Point)
  | Bezier (p0 p1 p2 p3 : Point)
  | Line (p0 p1 : Point)
deriving DecidableEq

/-- `struct Shape`. -/
structure Shape where
  primitives : List Primitive
deriving DecidableEq

/-- The drawing commands consumed by the converter (cosmic-text/swash
`Command`, with the glyph's pixel translation already applied by the
caller). -/
inductive Command where
  | MoveTo (p : Point)
  | QuadTo (c p : Point)
  | CurveTo (c0 c1 p : Point)
  | LineTo (p : Point)
  | Close
deriving DecidableEq

/-- The fatal error categories of the pipeline (each `.expect` panic in the
source is mapped to the category the specification assigns to it). -/
inductive Err where
  | geometryError
  | emptyInputError
  | numericError
deriving DecidableEq

/-- The converter state carried across one glyph's command sequence:
`last_point` and `first_point` from the main loop, plus the primitives
emitted so far (in order). -/
structure ConvState where
  last_point : Option Point
  first_point : Option Point
  primitives : List Primitive
deriving DecidableEq

/-- One iteration of the converter's `match command` loop in `main`. -/
def stepCommand (st : ConvState) : Command → Except Err ConvState
  | .MoveTo p =>
      .ok { st with first_point := some (st.first_point.getD p),
                    last_point := some p }
  | .QuadTo c p =>
      match st.last_point with
      | none => .error .geometryError
      | some from_pt =>
          .ok { st with primitives := st.primitives ++ [.Quadratic from_pt c p],
                        last_point := some p }
  | .CurveTo c0 c1 p =>
      match st.last_point with
      | none => .error .geometryError
      | some from_pt =>
          .ok { st with primitives := st.primitives ++ [.Bezier from_pt c0 c1 p],
                        last_point := some p }
  | .LineTo p =>
      match st.last_point with
      | none => .error .geometryError
      | some from_pt =>
          .ok { st with primitives := st.primitives ++ [.Line from_pt p],
                        last_point := some p }
  | .Close =>
      match st.last_point with
      | none => .error .geometryError
      | some from_pt =>
          match st.first_point with
          | none => .error .geometryError
          | some end_pt =>
              .ok { last_point := some end_pt,
                    first_point := none,
                    primitives := st.primitives ++ [.Line from_pt end_pt] }

/-- Run the converter loop over a command list from a given state. -/
def runCommands (st : ConvState) : List Command → Except Err ConvState
  | [] => .ok st
  | c :: cs =>
      match stepCommand st c with
      | .error e => .error e
      | .ok st2 => runCommands st2 cs

/-- Convert one glyph's command sequence (starting from unset
`last_point` / `first_point`, no primitives) into its primitive list. -/
def convGlyph (cs : List Command) : Except Err (List Primitive) :=
  match runCommands ⟨none, none, []⟩ cs with
  | .error e => .error e
  | .ok st => .ok st.primitives

/-- The glyph loop of `main`: glyphs with an empty command sequence are
skipped (`continue`), every other glyph is converted and contributes one
Shape, in layout order. -/
def buildShapes : List (List Command) → Except Err (List Shape)
  | [] => .ok []
  | cs :: rest =>
      if cs.length = 0 then buildShapes rest
      else
        match convGlyph cs with
        | .error e => .error e
        | .ok prims =>
            match buildShapes rest with
            | .error e => .error e
            | .ok shapes => .ok ({ primitives := prims } :: shapes)

/-- The points of one primitive, in the push order of `Shape::get_bb`. -/
def primPoints : Primitive → List Point
  | .Quadratic p1 p2 p3 => [p1, p2, p3]
  | .Bezier p1 p2 p3 p4 => [p1, p2, p3, p4]
  | .Line p1 p2 => [p1, p2]

/-- The point list built by `Shape::get_bb` (all endpoints and control
points of every primitive, duplicates kept, in order). -/
def collectPoints : List Primitive → List Point
  | [] => []
  | p :: ps => primPoints p ++ collectPoints ps

/-- One step of Rust's `Iterator::min_by` fold with the comparator
`|a, b| a.partial_cmp(b).expect("Unable to order floats")`: an
incomparable pair (nan) is the fatal NumericError. -/
def cmpMinFold (acc v : F) : Except Err F :=
  match F.pcmp acc v with
  | none => .error .numericError
  | some ord => .ok (if ord = .gt then v else acc)

/-- One step of `Iterator::max_by` with the same comparator. -/
def cmpMaxFold (acc v : F) : Except Err F :=
  match F.pcmp acc v with
  | none => .error .numericError
  | some ord => .ok (if ord = .gt then acc else v)

/-- `points.iter().map(...).min_by(...).expect("No items found")`: the
empty list is the fatal EmptyInputError. -/
def minByF : List F → Except Err F
  | [] => .error .emptyInputError
  | x :: xs => xs.foldlM cmpMinFold x

/-- `points.iter().map(...).max_by(...).expect("No items found")`. -/
def maxByF : List F → Except Err F
  | [] => .error .emptyInputError
  | x :: xs => xs.foldlM cmpMaxFold x

/-- `Shape::get_bb`: gather every point of every primitive, then take the
four independent extrema (min x, min y, max x, max y), each by a
`min_by` / `max_by` fold over `partial_cmp`. -/
def Shape.get_bb (s : Shape) : Except Err (Point × Point) := do
  let points := collectPoints s.primitives
  let min_x ← minByF (points.map Point.x)
  let min_y ← minByF (points.map Point.y)
  let max_x ← maxByF (points.map Point.x)
  let max_y ← maxByF (points.map Point.y)
  .ok (⟨min_x, min_y⟩, ⟨max_x, max_y⟩)

/-- The global bounding box of `main`: the first shape's box (the
`.expect("Geometry has no shapes")` on an empty collection is the
EmptyInputError) seeds a fold over every shape's box combining with
`Point::min` / `Point::max`. -/
def globalBB (shapes : List Shape) : Except Err (Point × Point) :=
  match shapes with
  | [] => .error .emptyInputError
  | s :: _ => do
      let seed ← s.get_bb
      shapes.foldlM
        (fun acc sh => do
          let bb ← sh.get_bb
          pure (Point.min acc.1 bb.1, Point.max acc.2 bb.2))
        seed

/-- `Shape::remap_shape`: apply `map_scale` to every point of every
primitive, keeping the variant and the order. -/
def remapPrim (min_point max_point : Point) : Primitive → Primitive
  | .Quadratic p1 p2 p3 =>
      .Quadratic (p1.map_scale min_point max_point)
        (p2.map_scale min_point max_point)
        (p3.map_scale min_point max_point)
  | .Bezier p1 p2 p3 p4 =>
      .Bezier (p1.map_scale min_point max_point)
        (p2.map_scale min_point max_point)
        (p3.map_scale min_point max_point)
        (p4.map_scale min_point max_point)
  | .Line p1 p2 =>
      .Line (p1.map_scale min_point max_point)
        (p2.map_scale min_point max_point)

def Shape.remap_shape (s : Shape) (min_point max_point : Point) : Shape :=
  ⟨s.primitives.map (remapPrim min_point max_point)⟩

/-- The geometry pipeline of `main` after the outline commands of each
glyph have been fetched and translated: build the shapes, compute the
global bounding box, remap every shape.  An error is a panic of the
process: serialization and the output file write never happen. -/
def mainPipeline (glyphs : List (List Command)) : Except Err (List Shape) :=
  match buildShapes glyphs with
  | .error e => .error e
  | .ok shapes =>
      match globalBB shapes with
      | .error e => .error e
      | .ok bb => .ok (shapes.map (fun s => s.remap_shape bb.1 bb.2))

/-- Specification-side quantizer: `round3(v) = floor(v * 1000) / 1000`. -/
def round3 (v : ℚ) : ℚ :=
  ((Int.floor (v * 1000) : ℤ) : ℚ) / 1000

/-- Start point of a primitive. -/
def primStart : Primitive → Point
  | .Quadratic a _ _ => a
  | .Bezier a _ _ _ => a
  | .Line a _ => a

/-- End point of a primitive. -/
def primEnd : Primitive → Point
  | .Quadratic _ _ c => c
  | .Bezier _ _ _ d => d
  | .Line _ b => b

/-- Specification-side annotation of a command sequence: one entry per
emitted primitive; `some q` marks a primitive that is the first one after
a subpath-starting Move whose (most recent) target is `q`, `none` marks a
primitive emitted with no Move since the previous primitive. -/
def annot : Option Point → List Command → List (Option Point)
  | _, [] => []
  | _, .MoveTo q :: cs => annot (some q) cs
  | pend, .QuadTo _ _ :: cs => pend :: annot none cs
  | pend, .CurveTo _ _ _ :: cs => pend :: annot none cs
  | pend, .LineTo _ :: cs => pend :: annot none cs
  | pend, .Close :: cs => pend :: annot none cs

/-- Specification-side continuity chain: given the end point of the last
previously emitted primitive, each primitive annotated `some q` starts at
`q`, and each primitive annotated `none` starts at that last end point. -/
def ChainOK : Option Point → List (Option Point) → List Primitive → Prop
  | _, [], [] => True
  | _, some q :: anns, p :: ps =>
      primStart p = q ∧ ChainOK (some (primEnd p)) anns ps
  | lastEnd, none :: anns, p :: ps =>
      lastEnd = some (primStart p) ∧ ChainOK (some (primEnd p)) anns ps
  | _, _, _ => False

/-- Variant tag of a primitive (0 = Quadratic, 1 = Bezier, 2 = Line). -/
def variantTag : Primitive → Nat
  | .Quadratic _ _ _ => 0
  | .Bezier _ _ _ _ => 1
  | .Line _ _ => 2

/-- Number of points carried by a primitive. -/
def pointCount : Primitive → Nat
  | .Quadratic _ _ _ => 3
  | .Bezier _ _ _ _ => 4
  | .Line _ _ => 2

/-- Shorthand for a point with finite rational coordinates. -/
def pt (a b : ℚ) : Point := ⟨F.fin a, F.fin b⟩

/-! Claim theorems. -/

/-- Claim C10: `map_scale` is total and never fails: on every input it
returns a Point with finite coordinates, because the quantizing `as i32`
cast maps nan to 0 and saturates the infinities to the i32 bounds. -/
theorem c10_map_scale_total (p mn mx : Point) :
    (∃ q r : ℚ, Point.map_scale p mn mx = ⟨F.fin q, F.fin r⟩) ∧
    F.toI32 .nan = 0 ∧
    F.toI32 .inf = 2147483647 ∧
    F.toI32 .ninf = -2147483648 :=
  ⟨⟨_, _, rfl⟩, rfl, rfl, rfl⟩

/-- Claim C2: a Move command always sets `current_point` (`last_point`) to
its target and sets `start_point` (`first_point`) only when it is unset; a
Close command emits `Line(current_point, start_point)`, moves
`current_point` to `start_point`, and clears `start_point`. -/
theorem c2_move_and_close (st : ConvState) (p cur fst : Point) :
    stepCommand st (.MoveTo p)
        = .ok ⟨some p, some (st.first_point.getD p), st.primitives⟩ ∧
    (st.first_point = none → st.first_point.getD p = p) ∧
    (∀ q, st.first_point = some q → st.first_point.getD p = q) ∧
    (st.last_point = some cur → st.first_point = some fst →
      stepCommand st .Close
          = .ok ⟨some fst, none, st.primitives ++ [.Line cur fst]⟩) := by
  refine ⟨rfl, ?_, ?_, ?_⟩
  · intro h
    rw [h]
    rfl
  · intro q h
    rw [h]
    rfl
  · intro h1 h2
    simp [stepCommand, h1, h2]

/-- Witness for C2 at a concrete state: the second Move leaves the anchor
alone, and Close emits the closing line, returns to the anchor and clears
it. -/
theorem c2_move_and_close_witness :
    stepCommand ⟨some (pt 5 5), some (pt 1 1), []⟩ (.MoveTo (pt 7 7))
        = .ok ⟨some (pt 7 7), some (pt 1 1), []⟩ ∧
    stepCommand ⟨some (pt 5 5), some (pt 1 1), []⟩ .Close
        = .ok ⟨some (pt 1 1), none, [.Line (pt 5 5) (pt 1 1)]⟩ := by
  refine ⟨?_, ?_⟩
  · exact (c2_move_and_close ⟨some (pt 5 5), some (pt 1 1), []⟩
      (pt 7 7) (pt 5 5) (pt 1 1)).1
  · exact (c2_move_and_close ⟨some (pt 5 5), some (pt 1 1), []⟩
      (pt 7 7) (pt 5 5) (pt 1 1)).2.2.2 rfl rfl

/-- Claim C3: the converter fails (with GeometryError) exactly when a
LineTo, QuadTo, CurveTo or Close command arrives while `current_point` is
unset, or a Close command arrives while `start_point` is unset; Move never
fails, every converter failure is a GeometryError, and a glyph whose
commands start with LineTo aborts the whole pipeline (so no output is
produced). -/
theorem c3_geometry_error_conditions (st : ConvState) (p c c0 c1 : Point)
    (rest : List Command) (glyphs : List (List Command)) :
    (stepCommand st (.LineTo p) = .error .geometryError ↔
      st.last_point = none) ∧
    (stepCommand st (.QuadTo c p) = .error .geometryError ↔
      st.last_point = none) ∧
    (stepCommand st (.CurveTo c0 c1 p) = .error .geometryError ↔
      st.last_point = none) ∧
    (stepCommand st .Close = .error .geometryError ↔
      (st.last_point = none ∨ st.first_point = none)) ∧
    (∀ e, stepCommand st (.MoveTo p) ≠ .error e) ∧
    (∀ cmd e, stepCommand st cmd = .error e → e = .geometryError) ∧
    mainPipeline ((Command.LineTo p :: rest) :: glyphs)
      = .error .geometryError := by
  obtain ⟨lp, fp, prims⟩ := st
  refine ⟨?_, ?_, ?_, ?_, ?_, ?_, ?_⟩
  · cases lp <;> simp [stepCommand]
  · cases lp <;> simp [stepCommand]
  · cases lp <;> simp [stepCommand]
  · cases lp <;> cases fp <;> simp [stepCommand]
  · intro e
    simp [stepCommand]
  · intro cmd e h
    cases cmd <;> cases lp <;> cases fp <;>
      simp [stepCommand] at h <;> simp [h.symm]
  · simp [mainPipeline, buildShapes, convGlyph, runCommands, stepCommand]

/-- Witness for C3: a LineTo with no previous point is a GeometryError and
the pipeline on such a glyph aborts with it. -/
theorem c3_geometry_error_conditions_witness :
    stepCommand ⟨none, none, []⟩ (.LineTo (pt 1 2)) = .error .geometryError ∧
    mainPipeline [[Command.LineTo (pt 1 2)]] = .error .geometryError := by
  refine ⟨?_, ?_⟩
  · exact (c3_geometry_error_conditions ⟨none, none, []⟩ (pt 1 2) (pt 1 2)
      (pt 1 2) (pt 1 2) [] []).1.mpr rfl
  · exact (c3_geometry_error_conditions ⟨none, none, []⟩ (pt 1 2) (pt 1 2)
      (pt 1 2) (pt 1 2) [] []).2.2.2.2.2.2

theorem remap_variantTags (mn mx : Point) :
    ∀ l : List Primitive,
      (l.map (remapPrim mn mx)).map variantTag = l.map variantTag
  | [] => rfl
  | p :: ps => by
      cases p <;> simp [remapPrim, variantTag, remap_variantTags mn mx ps]

theorem remap_pointCounts (mn mx : Point) :
    ∀ l : List Primitive,
      (l.map (remapPrim mn mx)).map pointCount = l.map pointCount
  | [] => rfl
  | p :: ps => by
      cases p <;> simp [remapPrim, pointCount, remap_pointCounts mn mx ps]

/-- Claim C9: normalization preserves the structure of the collection
exactly: same number of shapes in the same order, and at every index the
same primitive variants with the same point counts in the same order; only
coordinates change. -/
theorem c9_structure_preserved (shapes : List Shape) (mn mx : Point) :
    (shapes.map (fun s => s.remap_shape mn mx)).length = shapes.length ∧
    ∀ i : ℕ,
      ((shapes.map (fun s => s.remap_shape mn mx)).get? i).map
          (fun s => s.primitives.map variantTag)
        = (shapes.get? i).map (fun s => s.primitives.map variantTag) ∧
      ((shapes.map (fun s => s.remap_shape mn mx)).get? i).map
          (fun s => s.primitives.map pointCount)
        = (shapes.get? i).map (fun s => s.primitives.map pointCount) := by
  refine ⟨by simp, fun i => ⟨?_, ?_⟩⟩
  · rw [List.get?_map]
    cases shapes.get? i with
    | none => rfl
    | some s => exact congrArg some (remap_variantTags mn mx s.primitives)
  · rw [List.get?_map]
    cases shapes.get? i with
    | none => rfl
    | some s => exact congrArg some (remap_pointCounts mn mx s.primitives)

theorem buildShapes_all_empty :
    ∀ glyphs : List (List Command), (∀ g ∈ glyphs, g = []) →
      buildShapes glyphs = .ok []
  | [], _ => rfl
  | g :: gs, h => by
      have hg : g = [] := h g (by simp)
      subst hg
      simpa [buildShapes] using
        buildShapes_all_empty gs (fun g hg => h g (by simp [hg]))

/-- Claim C8: a glyph with an empty command sequence contributes no Shape
and raises no error (the collection just omits its entry, keeping the
others in order), and when every glyph is empty the pipeline fails with
EmptyInputError. -/
theorem c8_empty_commands_skipped (glyphs pre suf : List (List Command)) :
    (glyphs = pre ++ [] :: suf → buildShapes glyphs = buildShapes (pre ++ suf)) ∧
    ((∀ g ∈ glyphs, g = []) → mainPipeline glyphs = .error .emptyInputError) := by
  constructor
  · rintro rfl
    induction pre with
    | nil => rfl
    | cons g pre ih =>
        show buildShapes (g :: (pre ++ [] :: suf)) = buildShapes (g :: (pre ++ suf))
        simp only [buildShapes, ih]
  · intro h
    have hb : buildShapes glyphs = .ok [] := buildShapes_all_empty glyphs h
    simp [mainPipeline, hb, globalBB]

/-- Witness for C8: a leading empty glyph is skipped, and an all-empty
input fails with EmptyInputError. -/
theorem c8_empty_commands_skipped_witness :
    buildShapes [[], [Command.MoveTo (pt 0 0)]]
      = buildShapes [[Command.MoveTo (pt 0 0)]] ∧
    mainPipeline [[]] = .error .emptyInputError := by
  refine ⟨?_, ?_⟩
  · exact (c8_empty_commands_skipped [[], [Command.MoveTo (pt 0 0)]]
      [] [[Command.MoveTo (pt 0 0)]]).1 rfl
  · exact (c8_empty_commands_skipped [[]] [] []).2 (by simp)

theorem foldlM_bb (shapes : List Shape) (bbs : List (Point × Point))
    (h : List.Forall₂ (fun s bb => Shape.get_bb s = .ok bb) shapes bbs) :
    ∀ seed : Point × Point,
      shapes.foldlM
        (fun acc sh => do
          let bb ← sh.get_bb
          pure (Point.min acc.1 bb.1, Point.max acc.2 bb.2))
        seed
      = .ok (bbs.foldl
          (fun acc bb => (Point.min acc.1 bb.1, Point.max acc.2 bb.2)) seed) := by
  induction h with
  | nil => intro seed; rfl
  | @cons s bb ss bbs2 hsb htl ih =>
      intro seed
      simp only [List.foldlM_cons, hsb, List.foldl_cons]
      simpa using ih _

/-- Claim C5: on an empty collection the global bounding box step fails
with EmptyInputError; on a non-empty collection it is the fold of every
shape's bounding box by component-wise `Point::min` of the mins and
`Point::max` of the maxes, seeded with the first shape's box. -/
theorem c5_global_bounding_box (shapes : List Shape)
    (bbs : List (Point × Point)) (b : Point × Point)
    (rest : List (Point × Point)) :
    (shapes = [] → globalBB shapes = .error .emptyInputError) ∧
    (List.Forall₂ (fun s bb => Shape.get_bb s = .ok bb) shapes bbs →
      bbs = b :: rest →
      globalBB shapes
        = .ok (bbs.foldl
            (fun acc bb => (Point.min acc.1 bb.1, Point.max acc.2 bb.2)) b)) := by
  constructor
  · rintro rfl
    rfl
  · rintro h rfl
    cases h with
    | @cons s _ ss _ hsb htl =>
        simp only [globalBB, hsb]
        simpa using foldlM_bb (s :: ss) (b :: rest)
          (List.Forall₂.cons hsb htl) b

/-- Witness for C5 at a one-shape collection. -/
theorem c5_global_bounding_box_witness :
    globalBB [⟨[.Line (pt 0 0) (pt 10 10)]⟩]
      = .ok ([((pt 0 0 : Point), (pt 10 10 : Point))].foldl
          (fun acc bb => (Point.min acc.1 bb.1, Point.max acc.2 bb.2))
          ((pt 0 0 : Point), (pt 10 10 : Point))) := by
  apply (c5_global_bounding_box [⟨[.Line (pt 0 0) (pt 10 10)]⟩]
      [((pt 0 0 : Point), (pt 10 10 : Point))]
      ((pt 0 0 : Point), (pt 10 10 : Point)) []).2
  · refine List.Forall₂.cons ?_ List.Forall₂.nil
    simp [Shape.get_bb, collectPoints, primPoints, minByF, maxByF,
      List.foldlM, cmpMinFold, cmpMaxFold, F.pcmp, pt, bind, Except.bind,
      pure, Except.pure]
  · rfl

theorem toI32_mul1000_fin (v : ℚ) (h0 : 0 ≤ v)
    (hle : v * 1000 ≤ 2147483647) :
    (F.mul1000 (F.fin v)).toI32 = Int.floor (v * 1000) := by
  have h1 : ¬ (v * 1000 < 0) := not_lt.mpr (by positivity)
  have h2 : Int.floor (v * 1000) ≤ (2147483647 : ℤ) := by
    exact_mod_cast le_trans (Int.floor_le _) hle
  have h3 : (-2147483648 : ℤ) ≤ Int.floor (v * 1000) :=
    le_trans (by norm_num) (Int.floor_nonneg.mpr (by positivity))
  simp only [F.mul1000, F.toI32, truncQ, if_neg h1]
  rw [min_eq_right h2, max_eq_right h3]

/-- Claim C1: for a point of the collection (its coordinates bounded by
the global bounding box) whose quantizer input stays in i32 range, the
normalizer computes exactly `x' = round3((x - min.x) / (max.y - min.y))`
and `y' = round3((y - min.y) / (max.y - min.y))` with
`round3(v) = floor(v * 1000) / 1000` — the denominator is the vertical
extent for both axes.  (The `as i32` cast saturates, so the plain floor
formula additionally needs the x ratio times 1000 to be at most
2147483647; the y ratio lies in [0, 1] by the bounding-box bounds.) -/
theorem c1_normalizer_formula (p mn mx : Point) (px ax py ay b : ℚ)
    (hpx : p.x = F.fin px) (hax : mn.x = F.fin ax)
    (hpy : p.y = F.fin py) (hay : mn.y = F.fin ay) (hb : mx.y = F.fin b)
    (h1 : ay < b) (h2 : ax ≤ px) (h3 : ay ≤ py) (h4 : py ≤ b)
    (h5 : (px - ax) / (b - ay) * 1000 ≤ 2147483647) :
    Point.map_scale p mn mx
      = ⟨F.fin (round3 ((px - ax) / (b - ay))),
         F.fin (round3 ((py - ay) / (b - ay)))⟩ := by
  have hd : (b - ay) ≠ 0 := sub_ne_zero.mpr (ne_of_gt h1)
  have hdpos : (0 : ℚ) < b - ay := sub_pos.mpr h1
  have hvx0 : 0 ≤ (px - ax) / (b - ay) :=
    div_nonneg (by linarith) hdpos.le
  have hvy0 : 0 ≤ (py - ay) / (b - ay) :=
    div_nonneg (by linarith) hdpos.le
  have hvy1 : (py - ay) / (b - ay) ≤ 1 := by
    rw [div_le_one hdpos]
    linarith
  have hy5 : (py - ay) / (b - ay) * 1000 ≤ 2147483647 := by nlinarith
  have e3 : F.div (F.fin (px - ax)) (F.fin (b - ay))
      = F.fin ((px - ax) / (b - ay)) := by simp [F.div, hd]
  have e4 : F.div (F.fin (py - ay)) (F.fin (b - ay))
      = F.fin ((py - ay) / (b - ay)) := by simp [F.div, hd]
  show Point.mk
      (F.fin (((F.mul1000 (F.div (F.sub p.x mn.x) (F.sub mx.y mn.y))).toI32 : ℚ) / 1000))
      (F.fin (((F.mul1000 (F.div (F.sub p.y mn.y) (F.sub mx.y mn.y))).toI32 : ℚ) / 1000))
      = _
  rw [hpx, hax, hpy, hay, hb]
  show Point.mk
      (F.fin (((F.mul1000 (F.div (F.fin (px - ax)) (F.fin (b - ay)))).toI32 : ℚ) / 1000))
      (F.fin (((F.mul1000 (F.div (F.fin (py - ay)) (F.fin (b - ay)))).toI32 : ℚ) / 1000))
      = _
  rw [e3, e4, toI32_mul1000_fin _ hvx0 h5, toI32_mul1000_fin _ hvy0 hy5]
  rfl

/-- Witness for C1 at a concrete point and bounding box. -/
theorem c1_normalizer_formula_witness :
    Point.map_scale (pt 1 1) (pt 0 0) (pt 5 2)
      = ⟨F.fin (round3 ((1 - 0) / (2 - 0))),
         F.fin (round3 ((1 - 0) / (2 - 0)))⟩ :=
  c1_normalizer_formula (pt 1 1) (pt 0 0) (pt 5 2) 1 0 1 0 2
    rfl rfl rfl rfl rfl (by norm_num) (by norm_num) (by norm_num)
    (by norm_num) (by norm_num)

/-- Claim C6: after normalization a point attaining the global `min.y`
maps to `y' = 0` and a point attaining the global `max.y` maps to
`y' = 1` (for a bounding box of positive vertical extent). -/
theorem c6_extremes (p mn mx : Point) (ay b : ℚ)
    (hay : mn.y = F.fin ay) (hb : mx.y = F.fin b) (h1 : ay < b) :
    (p.y = mn.y → (Point.map_scale p mn mx).y = F.fin 0) ∧
    (p.y = mx.y → (Point.map_scale p mn mx).y = F.fin 1) := by
  have hd : (b - ay) ≠ 0 := sub_ne_zero.mpr (ne_of_gt h1)
  constructor
  · intro hp
    show F.fin (((F.mul1000 (F.div (F.sub p.y mn.y) (F.sub mx.y mn.y))).toI32 : ℚ) / 1000)
        = F.fin 0
    rw [hp, hay, hb]
    show F.fin (((F.mul1000 (F.div (F.fin (ay - ay)) (F.fin (b - ay)))).toI32 : ℚ) / 1000)
        = F.fin 0
    rw [sub_self]
    have e : F.div (F.fin 0) (F.fin (b - ay)) = F.fin 0 := by
      simp [F.div, hd]
    rw [e]
    have e2 : (F.mul1000 (F.fin 0)).toI32 = 0 := by
      simp [F.mul1000, F.toI32, truncQ]
    rw [e2]
    norm_num
  · intro hp
    show F.fin (((F.mul1000 (F.div (F.sub p.y mn.y) (F.sub mx.y mn.y))).toI32 : ℚ) / 1000)
        = F.fin 1
    rw [hp, hay, hb]
    show F.fin (((F.mul1000 (F.div (F.fin (b - ay)) (F.fin (b - ay)))).toI32 : ℚ) / 1000)
        = F.fin 1
    have e : F.div (F.fin (b - ay)) (F.fin (b - ay)) = F.fin 1 := by
      simp [F.div, hd, div_self]
    rw [e]
    have e2 : (F.mul1000 (F.fin 1)).toI32 = 1000 := by
      rw [toI32_mul1000_fin 1 (by norm_num) (by norm_num)]
      norm_num
    rw [e2]
    norm_num

/-- Witness for C6 at a concrete bounding box. -/
theorem c6_extremes_witness :
    (Point.map_scale (pt 0 0) (pt 0 0) (pt 5 1)).y = F.fin 0 ∧
    (Point.map_scale (pt 0 1) (pt 0 0) (pt 5 1)).y = F.fin 1 := by
  constructor
  · exact (c6_extremes (pt 0 0) (pt 0 0) (pt 5 1) 0 1 rfl rfl
      (by norm_num)).1 rfl
  · exact (c6_extremes (pt 0 1) (pt 0 0) (pt 5 1) 0 1 rfl rfl
      (by norm_num)).2 rfl

theorem chainOK_tail (L : Option Point) (a : Option Point)
    (anns : List (Option Point)) (p : Primitive) (ps : List Primitive)
    (h : ChainOK L (a :: anns) (p :: ps)) :
    ChainOK (some (primEnd p)) anns ps := by
  cases a
  · exact h.2
  · exact h.2

theorem chainOK_length (anns : List (Option Point)) :
    ∀ (L : Option Point) (ps : List Primitive),
      ChainOK L anns ps → anns.length = ps.length := by
  induction anns with
  | nil =>
      intro L ps h
      cases ps with
      | nil => rfl
      | cons p ps => simp [ChainOK] at h
  | cons a anns ih =>
      intro L ps h
      cases ps with
      | nil => cases a <;> simp [ChainOK] at h
      | cons p ps => simpa using ih _ ps (chainOK_tail _ _ _ _ _ h)

theorem chainOK_start (anns : List (Option Point)) :
    ∀ (L : Option Point) (ps : List Primitive),
      ChainOK L anns ps →
      ∀ (i : ℕ) (q : Point), anns.get? i = some (some q) →
        ∃ p, ps.get? i = some p ∧ primStart p = q := by
  induction anns with
  | nil =>
      intro L ps h i q hget
      simp at hget
  | cons a anns ih =>
      intro L ps h i q hget
      cases ps with
      | nil => cases a <;> simp [ChainOK] at h
      | cons p ps =>
          cases i with
          | zero =>
              have ha : a = some q := by simpa using hget
              subst ha
              exact ⟨p, rfl, h.1⟩
          | succ i =>
              have hget2 : anns.get? i = some (some q) := by simpa using hget
              obtain ⟨p2, hp2, hs⟩ := ih _ ps (chainOK_tail _ _ _ _ _ h) i q hget2
              exact ⟨p2, by simpa using hp2, hs⟩

theorem chainOK_cont (anns : List (Option Point)) :
    ∀ (L : Option Point) (ps : List Primitive),
      ChainOK L anns ps →
      ∀ i : ℕ, anns.get? (i + 1) = some none →
        ∀ p p2, ps.get? i = some p → ps.get? (i + 1) = some p2 →
          primEnd p = primStart p2 := by
  induction anns with
  | nil =>
      intro L ps h i hget
      simp at hget
  | cons a anns ih =>
      intro L ps h i hget p p2 hp hp2
      cases ps with
      | nil => cases a <;> simp [ChainOK] at h
      | cons p0 ps =>
          have htail : ChainOK (some (primEnd p0)) anns ps :=
            chainOK_tail _ _ _ _ _ h
          cases i with
          | zero =>
              have hp0 : p0 = p := by simpa using hp
              subst hp0
              have hget2 : anns.get? 0 = some none := by simpa using hget
              cases anns with
              | nil => simp at hget2
              | cons a2 anns2 =>
                  have ha2 : a2 = none := by simpa using hget2
                  subst ha2
                  cases ps with
                  | nil => simp at hp2
                  | cons p1 ps2 =>
                      have hp1 : p1 = p2 := by simpa using hp2
                      subst hp1
                      exact Option.some.inj htail.1
          | succ i =>
              exact ih _ ps htail i (by simpa using hget) p p2
                (by simpa using hp) (by simpa using hp2)

theorem annot_pending_head (cs : List Command) :
    ∀ q : Point, annot (some q) cs = [] ∨
      ∃ r tl, annot (some q) cs = some r :: tl := by
  induction cs with
  | nil => intro q; left; rfl
  | cons c cs ih =>
      intro q
      cases c with
      | MoveTo p => exact ih p
      | QuadTo c0 p => right; exact ⟨q, annot none cs, rfl⟩
      | CurveTo c0 c1 p => right; exact ⟨q, annot none cs, rfl⟩
      | LineTo p => right; exact ⟨q, annot none cs, rfl⟩
      | Close => right; exact ⟨q, annot none cs, rfl⟩

theorem chainOK_irrel (L L2 : Option Point) (anns : List (Option Point))
    (ps : List Primitive)
    (hhead : anns = [] ∨ ∃ r tl, anns = some r :: tl)
    (h : ChainOK L anns ps) : ChainOK L2 anns ps := by
  rcases hhead with rfl | ⟨r, tl, rfl⟩
  · cases ps with
    | nil => trivial
    | cons p ps => simp [ChainOK] at h
  · cases ps with
    | nil => simp [ChainOK] at h
    | cons p ps => exact ⟨h.1, h.2⟩

theorem runCommands_chain (cs : List Command) :
    ∀ (st st2 : ConvState), runCommands st cs = .ok st2 →
    ∀ pend : Option Point,
      (∀ q, pend = some q → st.last_point = some q) →
      ∃ newp, st2.primitives = st.primitives ++ newp ∧
        ChainOK st.last_point (annot pend cs) newp := by
  induction cs with
  | nil =>
      intro st st2 h pend _
      have hst : st = st2 := by
        simpa [runCommands] using h
      subst hst
      exact ⟨[], by simp, trivial⟩
  | cons c cs ih =>
      intro st st2 h pend hpend
      cases c with
      | MoveTo p =>
          have hstep : stepCommand st (.MoveTo p)
              = .ok ⟨some p, some (st.first_point.getD p), st.primitives⟩ := rfl
          rw [runCommands, hstep] at h
          obtain ⟨newp, hnp, hchain⟩ :=
            ih ⟨some p, some (st.first_point.getD p), st.primitives⟩ st2 h
              (some p) (fun q hq => hq)
          refine ⟨newp, hnp, ?_⟩
          show ChainOK st.last_point (annot (some p) cs) newp
          exact chainOK_irrel _ _ _ _ (annot_pending_head cs p) hchain
      | QuadTo c0 p =>
          cases hlp : st.last_point with
          | none =>
              rw [runCommands] at h
              simp [stepCommand, hlp] at h
          | some l =>
              have hstep : stepCommand st (.QuadTo c0 p)
                  = .ok ⟨some p, st.first_point,
                      st.primitives ++ [.Quadratic l c0 p]⟩ := by
                simp [stepCommand, hlp]
              rw [runCommands, hstep] at h
              obtain ⟨newp, hnp, hchain⟩ :=
                ih ⟨some p, st.first_point, st.primitives ++ [.Quadratic l c0 p]⟩
                  st2 h none (by simp)
              refine ⟨.Quadratic l c0 p :: newp, ?_, ?_⟩
              · rw [hnp]
                simp
              · show ChainOK (some l) (pend :: annot none cs)
                  (.Quadratic l c0 p :: newp)
                cases pend with
                | none => exact ⟨rfl, hchain⟩
                | some q =>
                    have hq : st.last_point = some q := hpend q rfl
                    have hlq : l = q := Option.some.inj (hlp ▸ hq)
                    exact ⟨hlq ▸ rfl, hchain⟩
      | CurveTo c0 c1 p =>
          cases hlp : st.last_point with
          | none =>
              rw [runCommands] at h
              simp [stepCommand, hlp] at h
          | some l =>
              have hstep : stepCommand st (.CurveTo c0 c1 p)
                  = .ok ⟨some p, st.first_point,
                      st.primitives ++ [.Bezier l c0 c1 p]⟩ := by
                simp [stepCommand, hlp]
              rw [runCommands, hstep] at h
              obtain ⟨newp, hnp, hchain⟩ :=
                ih ⟨some p, st.first_point, st.primitives ++ [.Bezier l c0 c1 p]⟩
                  st2 h none (by simp)
              refine ⟨.Bezier l c0 c1 p :: newp, ?_, ?_⟩
              · rw [hnp]
                simp
              · show ChainOK (some l) (pend :: annot none cs)
                  (.Bezier l c0 c1 p :: newp)
                cases pend with
                | none => exact ⟨rfl, hchain⟩
                | some q =>
                    have hq : st.last_point = some q := hpend q rfl
                    have hlq : l = q := Option.some.inj (hlp ▸ hq)
                    exact ⟨hlq ▸ rfl, hchain⟩
      | LineTo p =>
          cases hlp : st.last_point with
          | none =>
              rw [runCommands] at h
              simp [stepCommand, hlp] at h
          | some l =>
              have hstep : stepCommand st (.LineTo p)
                  = .ok ⟨some p, st.first_point,
                      st.primitives ++ [.Line l p]⟩ := by
                simp [stepCommand, hlp]
              rw [runCommands, hstep] at h
              obtain ⟨newp, hnp, hchain⟩ :=
                ih ⟨some p, st.first_point, st.primitives ++ [.Line l p]⟩
                  st2 h none (by simp)
              refine ⟨.Line l p :: newp, ?_, ?_⟩
              · rw [hnp]
                simp
              · show ChainOK (some l) (pend :: annot none cs)
                  (.Line l p :: newp)
                cases pend with
                | none => exact ⟨rfl, hchain⟩
                | some q =>
                    have hq : st.last_point = some q := hpend q rfl
                    have hlq : l = q := Option.some.inj (hlp ▸ hq)
                    exact ⟨hlq ▸ rfl, hchain⟩
      | Close =>
          cases hlp : st.last_point with
          | none =>
              rw [runCommands] at h
              simp [stepCommand, hlp] at h
          | some l =>
              cases hfp : st.first_point with
              | none =>
                  rw [runCommands] at h
                  simp [stepCommand, hlp, hfp] at h
              | some f =>
                  have hstep : stepCommand st .Close
                      = .ok ⟨some f, none, st.primitives ++ [.Line l f]⟩ := by
                    simp [stepCommand, hlp, hfp]
                  rw [runCommands, hstep] at h
                  obtain ⟨newp, hnp, hchain⟩ :=
                    ih ⟨some f, none, st.primitives ++ [.Line l f]⟩
                      st2 h none (by simp)
                  refine ⟨.Line l f :: newp, ?_, ?_⟩
                  · rw [hnp]
                    simp
                  · show ChainOK (some l) (pend :: annot none cs)
                      (.Line l f :: newp)
                    cases pend with
                    | none => exact ⟨rfl, hchain⟩
                    | some q =>
                        have hq : st.last_point = some q := hpend q rfl
                        have hlq : l = q := Option.some.inj (hlp ▸ hq)
                        exact ⟨hlq ▸ rfl, hchain⟩

/-- Claim C7: in every Shape the converter produces, the end point of
primitive i equals the start point of primitive i+1, except when primitive
i+1 is the first primitive emitted after a subpath-starting Move command;
the first primitive of a subpath starts at the most recent Move target
(`annot` marks, per emitted primitive, the most recent Move target when a
Move occurred since the previous primitive, and `none` otherwise). -/
theorem c7_continuity (cs : List Command) (prims : List Primitive)
    (h : convGlyph cs = .ok prims) :
    (annot none cs).length = prims.length ∧
    (∀ (i : ℕ) (q : Point), (annot none cs).get? i = some (some q) →
      ∃ p, prims.get? i = some p ∧ primStart p = q) ∧
    (∀ i : ℕ, (annot none cs).get? (i + 1) = some none →
      ∀ p p2, prims.get? i = some p → prims.get? (i + 1) = some p2 →
        primEnd p = primStart p2) := by
  cases hr : runCommands ⟨none, none, []⟩ cs with
  | error e =>
      rw [convGlyph, hr] at h
      simp at h
  | ok st2 =>
      rw [convGlyph, hr] at h
      have hp : st2.primitives = prims := by simpa using h
      obtain ⟨newp, hnp, hchain⟩ :=
        runCommands_chain cs ⟨none, none, []⟩ st2 hr none (by simp)
      have hpn : prims = newp := by
        rw [← hp, hnp]
        simp
      subst hpn
      exact ⟨chainOK_length _ _ _ hchain,
        fun i q => chainOK_start _ _ _ hchain i q,
        fun i => chainOK_cont _ _ _ hchain i⟩

/-- Witness for C7 on a concrete two-subpath glyph. -/
theorem c7_continuity_witness :
    (annot none [Command.MoveTo (pt 0 0), Command.LineTo (pt 1 0),
        Command.Close, Command.MoveTo (pt 2 2),
        Command.LineTo (pt 3 2)]).length
      = [Primitive.Line (pt 0 0) (pt 1 0), Primitive.Line (pt 1 0) (pt 0 0),
          Primitive.Line (pt 2 2) (pt 3 2)].length ∧
    (∀ (i : ℕ) (q : Point),
      (annot none [Command.MoveTo (pt 0 0), Command.LineTo (pt 1 0),
          Command.Close, Command.MoveTo (pt 2 2),
          Command.LineTo (pt 3 2)]).get? i = some (some q) →
      ∃ p, [Primitive.Line (pt 0 0) (pt 1 0), Primitive.Line (pt 1 0) (pt 0 0),
          Primitive.Line (pt 2 2) (pt 3 2)].get? i = some p ∧
        primStart p = q) ∧
    (∀ i : ℕ,
      (annot none [Command.MoveTo (pt 0 0), Command.LineTo (pt 1 0),
          Command.Close, Command.MoveTo (pt 2 2),
          Command.LineTo (pt 3 2)]).get? (i + 1) = some none →
      ∀ p p2,
        [Primitive.Line (pt 0 0) (pt 1 0), Primitive.Line (pt 1 0) (pt 0 0),
            Primitive.Line (pt 2 2) (pt 3 2)].get? i = some p →
        [Primitive.Line (pt 0 0) (pt 1 0), Primitive.Line (pt 1 0) (pt 0 0),
            Primitive.Line (pt 2 2) (pt 3 2)].get? (i + 1) = some p2 →
        primEnd p = primStart p2) :=
  c7_continuity
    [Command.MoveTo (pt 0 0), Command.LineTo (pt 1 0), Command.Close,
      Command.MoveTo (pt 2 2), Command.LineTo (pt 3 2)]
    [Primitive.Line (pt 0 0) (pt 1 0), Primitive.Line (pt 1 0) (pt 0 0),
      Primitive.Line (pt 2 2) (pt 3 2)]
    rfl


theorem fle_refl (a : F) (h : a ≠ .nan) : F.le a a := by
  cases a <;> simp [F.le] at *

theorem fle_trans (a b c : F) (h1 : F.le a b) (h2 : F.le b c) : F.le a c := by
  cases a <;> cases b <;> cases c <;> simp [F.le] at * <;> linarith

theorem pcmp_some (a b : F) (ha : a ≠ .nan) (hb : b ≠ .nan) :
    ∃ o, F.pcmp a b = some o := by
  cases a <;> cases b <;> simp [F.pcmp] at *

theorem pcmp_nan_left (b : F) : F.pcmp .nan b = none := by
  cases b <;> rfl

theorem pcmp_nan_right (a : F) : F.pcmp a .nan = none := by
  cases a <;> rfl

theorem pcmp_gt_le (a b : F) (h : F.pcmp a b = some .gt) : F.le b a := by
  cases a with
  | nan => rw [pcmp_nan_left] at h; exact absurd h (by simp)
  | ninf =>
      cases b with
      | nan => simp [F.pcmp] at h
      | ninf => simp [F.le]
      | inf => simp [F.pcmp] at h
      | fin qb => simp [F.pcmp] at h
  | inf => cases b <;> simp [F.pcmp, F.le] at h ⊢
  | fin qa =>
      cases b with
      | nan => simp [F.pcmp] at h
      | ninf => simp [F.le]
      | inf => simp [F.pcmp] at h
      | fin qb =>
          show qb ≤ qa
          by_contra hc
          push_neg at hc
          simp [F.pcmp, hc] at h

theorem pcmp_not_gt_le (a b : F) (o : Ordering) (h : F.pcmp a b = some o)
    (hn : o ≠ .gt) : F.le a b := by
  cases a with
  | nan => rw [pcmp_nan_left] at h; exact absurd h (by simp)
  | ninf => cases b <;> simp [F.pcmp, F.le] at h ⊢
  | inf =>
      cases b with
      | nan => simp [F.pcmp] at h
      | inf => simp [F.le]
      | ninf => simp [F.pcmp] at h; exact hn h.symm
      | fin qb => simp [F.pcmp] at h; exact hn h.symm
  | fin qa =>
      cases b with
      | nan => simp [F.pcmp] at h
      | inf => simp [F.le]
      | ninf => simp [F.pcmp] at h; exact hn h.symm
      | fin qb =>
          show qa ≤ qb
          by_contra hc
          push_neg at hc
          have h1 : ¬ qa < qb := by linarith
          have h2 : qa ≠ qb := ne_of_gt hc
          simp [F.pcmp, h1, h2] at h
          exact hn h.symm

theorem foldMin_ok (xs : List F) :
    ∀ x : F, x ≠ .nan → (∀ v ∈ xs, v ≠ .nan) →
    ∃ m, List.foldlM cmpMinFold x xs = .ok m ∧ (m = x ∨ m ∈ xs) ∧
      F.le m x ∧ ∀ v ∈ xs, F.le m v := by
  induction xs with
  | nil =>
      intro x hx _
      exact ⟨x, rfl, Or.inl rfl, fle_refl x hx, by simp⟩
  | cons v vs ih =>
      intro x hx hmem
      have hv : v ≠ .nan := hmem v (by simp)
      obtain ⟨o, ho⟩ := pcmp_some x v hx hv
      have hstep : cmpMinFold x v = .ok (if o = .gt then v else x) := by
        simp [cmpMinFold, ho]
      have haccne : (if o = .gt then v else x) ≠ .nan := by
        split_ifs <;> assumption
      obtain ⟨m, hm, hmmem, hmacc, hmall⟩ :=
        ih (if o = .gt then v else x) haccne
          (fun w hw => hmem w (by simp [hw]))
      refine ⟨m, ?_, ?_, ?_, ?_⟩
      · rw [List.foldlM_cons, hstep]
        simpa using hm
      · rcases hmmem with hme | hmin
        · by_cases hgt : o = .gt
          · have hmv : m = v := by simpa [hgt] using hme
            exact Or.inr (by rw [hmv]; exact List.mem_cons_self v vs)
          · exact Or.inl (by simpa [hgt] using hme)
        · exact Or.inr (List.mem_cons_of_mem v hmin)
      · by_cases hgt : o = .gt
        · have hvx : F.le v x := pcmp_gt_le x v (hgt ▸ ho)
          have hmv : F.le m v := by simpa [hgt] using hmacc
          exact fle_trans m v x hmv hvx
        · simpa [hgt] using hmacc
      · intro w hw
        rcases List.mem_cons.mp hw with rfl | hwvs
        · by_cases hgt : o = .gt
          · simpa [hgt] using hmacc
          · have hxw : F.le x w := pcmp_not_gt_le x w o ho hgt
            have hmx : F.le m x := by simpa [hgt] using hmacc
            exact fle_trans m x w hmx hxw
        · exact hmall w hwvs

theorem foldMin_err (xs : List F) :
    ∀ x : F, ((x = .nan ∧ xs ≠ []) ∨ .nan ∈ xs) →
    List.foldlM cmpMinFold x xs = .error .numericError := by
  induction xs with
  | nil =>
      intro x h
      rcases h with ⟨_, hne⟩ | h
      · exact absurd rfl hne
      · simp at h
  | cons v vs ih =>
      intro x h
      by_cases hx : x = .nan
      · subst hx
        have hcmf : cmpMinFold F.nan v = .error .numericError := by
          simp [cmpMinFold, pcmp_nan_left]
        rw [List.foldlM_cons, hcmf]
        rfl
      · have hnanv : F.nan ∈ v :: vs := by
          rcases h with ⟨hxe, _⟩ | h
          · exact absurd hxe hx
          · exact h
        by_cases hv : v = .nan
        · subst hv
          have hcmf : cmpMinFold x F.nan = .error .numericError := by
            simp [cmpMinFold, pcmp_nan_right]
          rw [List.foldlM_cons, hcmf]
          rfl
        · have hnvs : F.nan ∈ vs := by
            rcases List.mem_cons.mp hnanv with he | hm
            · exact absurd he.symm hv
            · exact hm
          obtain ⟨o, ho⟩ := pcmp_some x v hx hv
          rw [List.foldlM_cons,
            show cmpMinFold x v = .ok (if o = .gt then v else x) from by
              simp [cmpMinFold, ho]]
          simpa using ih (if o = .gt then v else x) (Or.inr hnvs)

theorem foldMax_ok (xs : List F) :
    ∀ x : F, x ≠ .nan → (∀ v ∈ xs, v ≠ .nan) →
    ∃ m, List.foldlM cmpMaxFold x xs = .ok m ∧ (m = x ∨ m ∈ xs) ∧
      F.le x m ∧ ∀ v ∈ xs, F.le v m := by
  induction xs with
  | nil =>
      intro x hx _
      exact ⟨x, rfl, Or.inl rfl, fle_refl x hx, by simp⟩
  | cons v vs ih =>
      intro x hx hmem
      have hv : v ≠ .nan := hmem v (by simp)
      obtain ⟨o, ho⟩ := pcmp_some x v hx hv
      have hstep : cmpMaxFold x v = .ok (if o = .gt then x else v) := by
        simp [cmpMaxFold, ho]
      have haccne : (if o = .gt then x else v) ≠ .nan := by
        split_ifs <;> assumption
      obtain ⟨m, hm, hmmem, hmacc, hmall⟩ :=
        ih (if o = .gt then x else v) haccne
          (fun w hw => hmem w (by simp [hw]))
      refine ⟨m, ?_, ?_, ?_, ?_⟩
      · rw [List.foldlM_cons, hstep]
        simpa using hm
      · rcases hmmem with hme | hmin
        · by_cases hgt : o = .gt
          · exact Or.inl (by simpa [hgt] using hme)
          · have hmv : m = v := by simpa [hgt] using hme
            exact Or.inr (by rw [hmv]; exact List.mem_cons_self v vs)
        · exact Or.inr (List.mem_cons_of_mem v hmin)
      · by_cases hgt : o = .gt
        · simpa [hgt] using hmacc
        · have hxv : F.le x v := pcmp_not_gt_le x v o ho hgt
          have hvm : F.le v m := by simpa [hgt] using hmacc
          exact fle_trans x v m hxv hvm
      · intro w hw
        rcases List.mem_cons.mp hw with rfl | hwvs
        · by_cases hgt : o = .gt
          · have hwx : F.le w x := pcmp_gt_le x w (hgt ▸ ho)
            have hxm : F.le x m := by simpa [hgt] using hmacc
            exact fle_trans w x m hwx hxm
          · simpa [hgt] using hmacc
        · exact hmall w hwvs

theorem foldMax_err (xs : List F) :
    ∀ x : F, ((x = .nan ∧ xs ≠ []) ∨ .nan ∈ xs) →
    List.foldlM cmpMaxFold x xs = .error .numericError := by
  induction xs with
  | nil =>
      intro x h
      rcases h with ⟨_, hne⟩ | h
      · exact absurd rfl hne
      · simp at h
  | cons v vs ih =>
      intro x h
      by_cases hx : x = .nan
      · subst hx
        have hcmf : cmpMaxFold F.nan v = .error .numericError := by
          simp [cmpMaxFold, pcmp_nan_left]
        rw [List.foldlM_cons, hcmf]
        rfl
      · have hnanv : F.nan ∈ v :: vs := by
          rcases h with ⟨hxe, _⟩ | h
          · exact absurd hxe hx
          · exact h
        by_cases hv : v = .nan
        · subst hv
          have hcmf : cmpMaxFold x F.nan = .error .numericError := by
            simp [cmpMaxFold, pcmp_nan_right]
          rw [List.foldlM_cons, hcmf]
          rfl
        · have hnvs : F.nan ∈ vs := by
            rcases List.mem_cons.mp hnanv with he | hm
            · exact absurd he.symm hv
            · exact hm
          obtain ⟨o, ho⟩ := pcmp_some x v hx hv
          rw [List.foldlM_cons,
            show cmpMaxFold x v = .ok (if o = .gt then x else v) from by
              simp [cmpMaxFold, ho]]
          simpa using ih (if o = .gt then x else v) (Or.inr hnvs)

theorem minByF_ok (l : List F) (hne : l ≠ []) (h : ∀ v ∈ l, v ≠ .nan) :
    ∃ m, minByF l = .ok m ∧ m ∈ l ∧ ∀ v ∈ l, F.le m v := by
  cases l with
  | nil => exact absurd rfl hne
  | cons x xs =>
      obtain ⟨m, hm, hmem, hmx, hall⟩ :=
        foldMin_ok xs x (h x (by simp)) (fun v hv => h v (by simp [hv]))
      refine ⟨m, hm, ?_, ?_⟩
      · rcases hmem with hme | hmem
        · rw [hme]
          exact List.mem_cons_self x xs
        · exact List.mem_cons_of_mem x hmem
      · intro v hv
        rcases List.mem_cons.mp hv with rfl | hv2
        · exact hmx
        · exact hall v hv2

theorem maxByF_ok (l : List F) (hne : l ≠ []) (h : ∀ v ∈ l, v ≠ .nan) :
    ∃ m, maxByF l = .ok m ∧ m ∈ l ∧ ∀ v ∈ l, F.le v m := by
  cases l with
  | nil => exact absurd rfl hne
  | cons x xs =>
      obtain ⟨m, hm, hmem, hxm, hall⟩ :=
        foldMax_ok xs x (h x (by simp)) (fun v hv => h v (by simp [hv]))
      refine ⟨m, hm, ?_, ?_⟩
      · rcases hmem with hme | hmem
        · rw [hme]
          exact List.mem_cons_self x xs
        · exact List.mem_cons_of_mem x hmem
      · intro v hv
        rcases List.mem_cons.mp hv with rfl | hv2
        · exact hxm
        · exact hall v hv2

theorem minByF_err (l : List F) (h2 : 2 ≤ l.length) (h : .nan ∈ l) :
    minByF l = .error .numericError := by
  cases l with
  | nil => simp at h2
  | cons x xs =>
      have hxs : xs ≠ [] := by
        intro he
        rw [he] at h2
        simp at h2
      show List.foldlM cmpMinFold x xs = .error .numericError
      by_cases hx : x = .nan
      · exact foldMin_err xs x (Or.inl ⟨hx, hxs⟩)
      · have : F.nan ∈ xs := by
          rcases List.mem_cons.mp h with he | hm
          · exact absurd he.symm hx
          · exact hm
        exact foldMin_err xs x (Or.inr this)

theorem maxByF_err (l : List F) (h2 : 2 ≤ l.length) (h : .nan ∈ l) :
    maxByF l = .error .numericError := by
  cases l with
  | nil => simp at h2
  | cons x xs =>
      have hxs : xs ≠ [] := by
        intro he
        rw [he] at h2
        simp at h2
      show List.foldlM cmpMaxFold x xs = .error .numericError
      by_cases hx : x = .nan
      · exact foldMax_err xs x (Or.inl ⟨hx, hxs⟩)
      · have : F.nan ∈ xs := by
          rcases List.mem_cons.mp h with he | hm
          · exact absurd he.symm hx
          · exact hm
        exact foldMax_err xs x (Or.inr this)

theorem collectPoints_two_le (ps : List Primitive) (h : ps ≠ []) :
    2 ≤ (collectPoints ps).length := by
  cases ps with
  | nil => exact absurd rfl h
  | cons p rest => cases p <;> simp [collectPoints, primPoints]

theorem collectPoints_ne (ps : List Primitive) (h : ps ≠ []) :
    collectPoints ps ≠ [] := by
  intro he
  have := collectPoints_two_le ps h
  rw [he] at this
  simp at this

/-- Claim C4: the per-shape bounding box is the independent component-wise
min and max over every point of every primitive (endpoints and control
points, duplicates included: membership plus the `F.le` bound in each
component); a nan among the compared coordinates is a fatal NumericError,
and a shape with zero primitives is an EmptyInputError. -/
theorem c4_get_bb (s : Shape) :
    (s.primitives = [] → s.get_bb = .error .emptyInputError) ∧
    (s.primitives ≠ [] →
      (∃ p ∈ collectPoints s.primitives, p.x = F.nan ∨ p.y = F.nan) →
      s.get_bb = .error .numericError) ∧
    (s.primitives ≠ [] →
      (∀ p ∈ collectPoints s.primitives, p.x ≠ F.nan ∧ p.y ≠ F.nan) →
      ∃ mnx mny mxx mxy,
        s.get_bb = .ok (⟨mnx, mny⟩, ⟨mxx, mxy⟩) ∧
        (mnx ∈ (collectPoints s.primitives).map Point.x ∧
          ∀ v ∈ (collectPoints s.primitives).map Point.x, F.le mnx v) ∧
        (mny ∈ (collectPoints s.primitives).map Point.y ∧
          ∀ v ∈ (collectPoints s.primitives).map Point.y, F.le mny v) ∧
        (mxx ∈ (collectPoints s.primitives).map Point.x ∧
          ∀ v ∈ (collectPoints s.primitives).map Point.x, F.le v mxx) ∧
        (mxy ∈ (collectPoints s.primitives).map Point.y ∧
          ∀ v ∈ (collectPoints s.primitives).map Point.y, F.le v mxy)) := by
  refine ⟨?_, ?_, ?_⟩
  · intro h
    obtain ⟨prims⟩ := s
    simp only at h
    subst h
    rfl
  · intro hne hnan
    by_cases hx : F.nan ∈ (collectPoints s.primitives).map Point.x
    · have hmin : minByF ((collectPoints s.primitives).map Point.x)
          = .error .numericError := by
        refine minByF_err _ ?_ hx
        rw [List.length_map]
        exact collectPoints_two_le _ hne
      simp only [Shape.get_bb, hmin]
      rfl
    · obtain ⟨p, hp, hpc⟩ := hnan
      have hpy : p.y = F.nan := by
        rcases hpc with hxx | hyy
        · exact absurd (List.mem_map.mpr ⟨p, hp, hxx⟩) hx
        · exact hyy
      have hy : F.nan ∈ (collectPoints s.primitives).map Point.y :=
        List.mem_map.mpr ⟨p, hp, hpy⟩
      have hxcl : ∀ v ∈ (collectPoints s.primitives).map Point.x,
          v ≠ F.nan := fun v hv he => hx (he ▸ hv)
      have hxne : (collectPoints s.primitives).map Point.x ≠ [] := by
        simp [List.map_eq_nil]
        exact collectPoints_ne _ hne
      obtain ⟨mnx, hmnx, _, _⟩ := minByF_ok _ hxne hxcl
      have hminy : minByF ((collectPoints s.primitives).map Point.y)
          = .error .numericError := by
        refine minByF_err _ ?_ hy
        rw [List.length_map]
        exact collectPoints_two_le _ hne
      simp only [Shape.get_bb, hmnx, hminy]
      rfl
  · intro hne hclean
    have hxcl : ∀ v ∈ (collectPoints s.primitives).map Point.x,
        v ≠ F.nan := by
      intro v hv
      obtain ⟨p, hp, he⟩ := List.mem_map.mp hv
      exact he ▸ (hclean p hp).1
    have hycl : ∀ v ∈ (collectPoints s.primitives).map Point.y,
        v ≠ F.nan := by
      intro v hv
      obtain ⟨p, hp, he⟩ := List.mem_map.mp hv
      exact he ▸ (hclean p hp).2
    have hxne : (collectPoints s.primitives).map Point.x ≠ [] := by
      simp [List.map_eq_nil]
      exact collectPoints_ne _ hne
    have hyne : (collectPoints s.primitives).map Point.y ≠ [] := by
      simp [List.map_eq_nil]
      exact collectPoints_ne _ hne
    obtain ⟨mnx, e1, m1, b1⟩ := minByF_ok _ hxne hxcl
    obtain ⟨mny, e2, m2, b2⟩ := minByF_ok _ hyne hycl
    obtain ⟨mxx, e3, m3, b3⟩ := maxByF_ok _ hxne hxcl
    obtain ⟨mxy, e4, m4, b4⟩ := maxByF_ok _ hyne hycl
    refine ⟨mnx, mny, mxx, mxy, ?_, ⟨m1, b1⟩, ⟨m2, b2⟩, ⟨m3, b3⟩, ⟨m4, b4⟩⟩
    simp only [Shape.get_bb, e1, e2, e3, e4]
    rfl

/-- Witness for C4 on a concrete one-primitive shape. -/
theorem c4_get_bb_witness :
    ∃ mnx mny mxx mxy,
      (Shape.mk [.Line (pt 0 0) (pt 10 10)]).get_bb
          = .ok (⟨mnx, mny⟩, ⟨mxx, mxy⟩) ∧
      (mnx ∈ (collectPoints [Primitive.Line (pt 0 0) (pt 10 10)]).map Point.x ∧
        ∀ v ∈ (collectPoints [Primitive.Line (pt 0 0) (pt 10 10)]).map Point.x,
          F.le mnx v) ∧
      (mny ∈ (collectPoints [Primitive.Line (pt 0 0) (pt 10 10)]).map Point.y ∧
        ∀ v ∈ (collectPoints [Primitive.Line (pt 0 0) (pt 10 10)]).map Point.y,
          F.le mny v) ∧
      (mxx ∈ (collectPoints [Primitive.Line (pt 0 0) (pt 10 10)]).map Point.x ∧
        ∀ v ∈ (collectPoints [Primitive.Line (pt 0 0) (pt 10 10)]).map Point.x,
          F.le v mxx) ∧
      (mxy ∈ (collectPoints [Primitive.Line (pt 0 0) (pt 10 10)]).map Point.y ∧
        ∀ v ∈ (collectPoints [Primitive.Line (pt 0 0) (pt 10 10)]).map Point.y,
          F.le v mxy) :=
  (c4_get_bb (Shape.mk [.Line (pt 0 0) (pt 10 10)])).2.2 (by simp)
    (by
      intro p hp
      simp [collectPoints, primPoints] at hp
      rcases hp with h | h <;> rw [h] <;> simp [pt])

/-- Counterexample to C1 as literally stated: the `as i32` cast saturates
at 2147483647, so for a very wide, flat collection the computed x' is the
saturated 2147483.647, not `round3((x - min.x)/(max.y - min.y))`. -/
theorem c1_normalizer_formula_counterexample :
    Point.map_scale (pt 10000000000000 0) (pt 0 0) (pt 0 1)
      ≠ ⟨F.fin (round3 ((10000000000000 - 0) / (1 - 0))),
         F.fin (round3 ((0 - 0) / (1 - 0)))⟩ := by
  have hL : Point.map_scale (pt 10000000000000 0) (pt 0 0) (pt 0 1)
      = ⟨F.fin (2147483647 / 1000), F.fin 0⟩ := by
    norm_num [Point.map_scale, pt, F.sub, F.div, F.mul1000, F.toI32, truncQ]
  have hR : round3 ((10000000000000 - 0) / (1 - 0)) = 10000000000000 := by
    norm_num [round3]
  rw [hL, hR]
  intro h
  have hx : F.fin ((2147483647 : ℚ) / 1000) = F.fin (10000000000000 : ℚ) :=
    congrArg Point.x h
  exact absurd (F.fin.inj hx) (by norm_num)

/-- Counterexample to C6 as literally stated: with a zero vertical extent
(min.y = max.y = 0) the point (0, 0) attains the global max.y, yet its
normalized y is 0 (the 0/0 division yields nan and the cast sends nan to
0), not 1. -/
theorem c6_extremes_counterexample :
    (pt 0 0).y = (pt 5 0).y ∧
    (Point.map_scale (pt 0 0) (pt 3 0) (pt 5 0)).y = F.fin 0 ∧
    F.fin (0 : ℚ) ≠ F.fin 1 := by
  refine ⟨rfl, ?_, ?_⟩
  · norm_num [Point.map_scale, pt, F.sub, F.div, F.mul1000, F.toI32, truncQ]
  · intro h
    exact absurd (F.fin.inj h) (by norm_num)
